import Mathlib

set_option autoImplicit false

/-!
Verification of the Day 10 syntax-scoring program (`dec10.py`).

The program scans each line left to right keeping a stack of opening
brackets.  A closing bracket is compared with the stack's last element
(`stack[-1]` — an uncaught `IndexError` when the stack is empty); a
mismatch raises `SyntaxError(line, i, ...)`, and a non-empty stack at end
of line raises `IncompleteLineError(line, expecting, ...)`.  The `__main__`
block folds the per-line outcomes of a batch into a corruption total and a
list of incompleteness scores, then reports the median incompleteness
score of the sorted list.

Python exceptions are modelled by the `PyResult` sum type; uncaught
exceptions (`IndexError` from `stack[-1]`, `KeyError` from a dict lookup)
appear as the `fault` constructor, and the aggregator returns `Option`
(`none` = the program crashes).
-/

namespace Dec10

/-- `pairs = [("[", "]"), ("(", ")"), ("{", "}"), ("<", ">")]`. -/
def pairs : List (Char × Char) := [('[', ']'), ('(', ')'), ('{', '}'), ('<', '>')]

/-- `illegal_scores = {")": 3, "]": 57, "}": 1197, ">": 25137}`; a Python
dict lookup is partial, hence `Option`. -/
def illegal_scores (c : Char) : Option Nat :=
  if c = ')' then some 3 else if c = ']' then some 57
  else if c = '}' then some 1197 else if c = '>' then some 25137 else none

/-- `missing_scores = {")": 1, "]": 2, "}": 3, ">": 4}`. -/
def missing_scores (c : Char) : Option Nat :=
  if c = ')' then some 1 else if c = ']' then some 2
  else if c = '}' then some 3 else if c = '>' then some 4 else none

/-- `opening = [x[0] for x in pairs]`. -/
def opening : List Char := pairs.map (fun x => x.1)

/-- `map_to_closing = {x[0]: x[1] for x in pairs}` as a partial lookup. -/
def map_to_closing (c : Char) : Option Char :=
  (pairs.find? (fun x => x.1 = c)).map (fun x => x.2)

/-- `map_from_closing = {x[1]: x[0] for x in pairs}` as a partial lookup. -/
def map_from_closing (c : Char) : Option Char :=
  (pairs.find? (fun x => x.2 = c)).map (fun x => x.1)

/-- Outcome of the character loop of `verify_syntax` (lines 105-115):
either the loop finishes with the final stack, or it raises
`SyntaxError(line, i, ...)` at index `i` (recorded with the offending
character `found = c` and the stack top `last`), or it hits the uncaught
`IndexError` of `stack[-1]` on an empty stack. -/
inductive ScanOut where
  | done (stack : List Char)
  | err (pos : Nat) (found : Char) (last : Char)
  | fault (pos : Nat)
deriving DecidableEq

/-- The loop `for i, c in enumerate(line)` of `verify_syntax`, carrying the
current index `i` and the stack.  `stack += [c]` for an opening symbol;
for a closing symbol `last = stack[-1]` (IndexError when empty), a
mismatch raises, a match pops `stack = stack[:-1]`. -/
def scan : List Char → Nat → List Char → ScanOut
  | [], _, stack => .done stack
  | c :: rest, i, stack =>
    let stack1 := if c ∈ opening then stack ++ [c] else stack
    match map_from_closing c with
    | some expected =>
      match stack1.getLast? with
      | none => .fault i
      | some last =>
        if last ≠ expected then .err i c last
        else scan rest (i + 1) stack1.dropLast
    | none => scan rest (i + 1) stack1

/-- The comprehension `[map_to_closing[x] for x in stack]` (after
`stack.reverse()`); `none` models the KeyError when a stack element has no
closer (never reached: only opening symbols are pushed). -/
def closers_of : List Char → Option (List Char)
  | [] => some []
  | x :: rest =>
    match map_to_closing x with
    | none => none
    | some c => (closers_of rest).map (fun cs => c :: cs)

/-- Observable outcome of one call of `verify_syntax`: normal return,
`SyntaxError` (position, found character, stack top), `IncompleteLineError`
(the `expecting` list), or an uncaught non-syntax exception (`fault`). -/
inductive PyResult where
  | ok
  | syntaxError (pos : Nat) (found : Char) (last : Char)
  | incomplete (expecting : List Char)
  | fault (pos : Nat)
deriving DecidableEq

/-- `verify_syntax` (lines 104-123): run the loop; at end of line a
non-empty stack is reversed, mapped through `map_to_closing`, and raised
as `IncompleteLineError`. -/
def verify_syntax (line : List Char) : PyResult :=
  match scan line 0 [] with
  | .err i c last => .syntaxError i c last
  | .fault i => .fault i
  | .done stack =>
    if stack.length > 0 then
      match closers_of stack.reverse with
      | some expecting => .incomplete expecting
      | none => .fault line.length
    else .ok

/-- Accumulator of the `__main__` loop: the `valid` lines, the `illegal`
corruption total, and the `missing` incompleteness scores. -/
structure BatchState where
  valid : List (List Char)
  illegal : Nat
  missing : List Nat
deriving DecidableEq

/-- One iteration of the `for line in lines` loop (lines 134-145): catch
`SyntaxError` and score `line[e.pos]` via `illegal_scores`, catch
`IncompleteLineError` and fold `score = score * 5 + missing_scores[x]`;
`none` models a crash of the program (uncaught IndexError or a KeyError
in a table lookup). -/
def process_line (st : BatchState) (line : List Char) : Option BatchState :=
  match verify_syntax line with
  | .ok => some { st with valid := st.valid ++ [line] }
  | .syntaxError pos _ _ =>
    match line.get? pos with
    | none => none
    | some c =>
      match illegal_scores c with
      | none => none
      | some v => some { st with illegal := st.illegal + v }
  | .incomplete expecting =>
    match expecting.foldl
        (fun acc x => acc.bind (fun s => (missing_scores x).map (fun v => s * 5 + v)))
        (some 0) with
    | none => none
    | some score => some { st with missing := st.missing ++ [score] }
  | .fault _ => none

/-- The whole per-file loop (lines 131-145), starting from empty
accumulators. -/
def process (lines : List (List Char)) : Option BatchState :=
  lines.foldlM process_line { valid := [], illegal := 0, missing := [] }

/-- `sorted(missing)[int(len(missing) / 2)]` (line 148); `none` is the
IndexError on an empty score list. -/
def missing_report (missing : List Nat) : Option Nat :=
  (missing.insertionSort (· ≤ ·)).get? (missing.length / 2)

/-- What a file's run of the `__main__` block prints (lines 147-148):
the corruption total and the median incompleteness score; `none` when the
program crashes before printing both. -/
def main_result (lines : List (List Char)) : Option (Nat × Nat) :=
  (process lines).bind (fun st => (missing_report st.missing).map (fun m => (st.illegal, m)))

/-- Corruption-score contribution of one line: the `illegal_scores` table
value of the character that triggered the `SyntaxError`, `0` for a line
that is not corrupted. -/
def corruption_contribution (l : List Char) : Nat :=
  match verify_syntax l with
  | .syntaxError _ c _ => (illegal_scores c).getD 0
  | _ => 0

/-- Incompleteness score of one line: the left-to-right fold
`score = score * 5 + missing_scores[x]` over the `expecting` list, `none`
for a line that is not incomplete. -/
def incomplete_score (l : List Char) : Option Nat :=
  match verify_syntax l with
  | .incomplete expecting =>
    some (expecting.foldl (fun s c => s * 5 + (missing_scores c).getD 0) 0)
  | _ => none

/-- A character of the eight-symbol bracket alphabet: it is pushed
(`c in opening`) or compared (`c in map_from_closing`); every other
character falls through both `if`s of the loop. -/
def is_bracket (c : Char) : Bool :=
  decide (c ∈ opening) || (map_from_closing c).isSome

/-- `ScanOut` with the reported position erased. -/
def scan_shape : ScanOut → ScanOut
  | .done s => .done s
  | .err _ c last => .err 0 c last
  | .fault _ => .fault 0

/-- `PyResult` with the reported position erased. -/
def result_shape : PyResult → PyResult
  | .syntaxError _ c last => .syntaxError 0 c last
  | .fault _ => .fault 0
  | r => r

/-- Well-nested lines over the four legal pairs, the spec's notion of a
line all of whose chunks open and close with matching characters:
the empty line, a matching pair wrapped around a well-nested body, and
adjacent chunks. -/
inductive Balanced : List Char → Prop where
  | nil : Balanced []
  | wrap {o c : Char} {m : List Char} : (o, c) ∈ pairs → Balanced m →
      Balanced (o :: (m ++ [c]))
  | seq {a b : List Char} : Balanced a → Balanced b → Balanced (a ++ b)

/-- The ten example lines of the puzzle statement (source comment,
lines 38-47). -/
def example_lines : List (List Char) :=
  [ ['[', '(', '{', '(', '<', '(', '(', ')', ')', '[', ']', '>', '[', '[', '{', '[', ']', '{', '<', '(', ')', '<', '>', '>'],
    ['[', '(', '(', ')', '[', '<', '>', ']', ')', ']', '(', '{', '[', '<', '{', '<', '<', '[', ']', '>', '>', '('],
    ['{', '(', '[', '(', '<', '{', '}', '[', '<', '>', '[', ']', '}', '>', '{', '[', ']', '{', '[', '(', '<', '(', ')', '>'],
    ['(', '(', '(', '(', '{', '<', '>', '}', '<', '{', '<', '{', '<', '>', '}', '{', '[', ']', '{', '[', ']', '{', '}'],
    ['[', '[', '<', '[', '(', '[', ']', ')', ')', '<', '(', '[', '[', '{', '}', '[', '[', '(', ')', ']', ']', ']'],
    ['[', '{', '[', '{', '(', '{', '}', ']', '{', '}', '}', '(', '[', '{', '[', '{', '{', '{', '}', '}', '(', '[', ']'],
    ['{', '<', '[', '[', ']', ']', '>', '}', '<', '{', '[', '{', '[', '{', '[', ']', '{', '(', ')', '[', '[', '[', ']'],
    ['[', '<', '(', '<', '(', '<', '(', '<', '{', '}', ')', ')', '>', '<', '(', '[', ']', '(', '[', ']', '(', ')'],
    ['<', '{', '(', '[', '(', '[', '[', '(', '<', '>', '(', ')', ')', '{', '}', ']', '>', '(', '<', '<', '{', '{'],
    ['<', '{', '(', '[', '{', '{', '}', '}', '[', '<', '[', '[', '[', '<', '>', '{', '}', ']', ']', ']', '>', '[', ']', ']'] ]


/-! ### Step equations for the scanning loop -/

theorem scan_nil (i : Nat) (st : List Char) : scan [] i st = .done st := rfl

/-- A character that is not a closing symbol: push it if it opens,
otherwise skip it. -/
theorem scan_cons_noclose {c : Char} (rest : List Char) (i : Nat) (st : List Char)
    (hm : map_from_closing c = none) :
    scan (c :: rest) i st = scan rest (i + 1) (if c ∈ opening then st ++ [c] else st) := by
  simp only [scan, hm]

/-- A closing symbol with an empty stack: the uncaught IndexError of
`stack[-1]`. -/
theorem scan_cons_close_empty {c expected : Char} (rest : List Char) (i : Nat) (st : List Char)
    (hm : map_from_closing c = some expected)
    (hl : (if c ∈ opening then st ++ [c] else st).getLast? = none) :
    scan (c :: rest) i st = .fault i := by
  simp only [scan, hm, hl]

/-- A closing symbol whose matching opener differs from the stack top. -/
theorem scan_cons_close_mismatch {c expected last : Char} (rest : List Char) (i : Nat)
    (st : List Char)
    (hm : map_from_closing c = some expected)
    (hl : (if c ∈ opening then st ++ [c] else st).getLast? = some last)
    (hne : last ≠ expected) :
    scan (c :: rest) i st = .err i c last := by
  simp only [scan, hm, hl, if_pos hne]

/-- A closing symbol matching the stack top: pop and continue. -/
theorem scan_cons_close_match {c expected : Char} (rest : List Char) (i : Nat) (st : List Char)
    (hm : map_from_closing c = some expected)
    (hl : (if c ∈ opening then st ++ [c] else st).getLast? = some expected) :
    scan (c :: rest) i st =
      scan rest (i + 1) (if c ∈ opening then st ++ [c] else st).dropLast := by
  simp only [scan, hm, hl, ne_eq, not_true_eq_false, if_neg, ite_false, not_false_eq_true]

/-! ### The four bracket pairs, by cases -/

theorem opening_eq : opening = ['[', '(', '{', '<'] := rfl

theorem mem_opening {c : Char} (h : c ∈ opening) :
    c = '[' ∨ c = '(' ∨ c = '{' ∨ c = '<' := by
  rw [opening_eq] at h
  simpa using h

theorem map_from_closing_cases {c o : Char} (h : map_from_closing c = some o) :
    (c = ']' ∧ o = '[') ∨ (c = ')' ∧ o = '(') ∨ (c = '}' ∧ o = '{') ∨ (c = '>' ∧ o = '<') := by
  simp only [map_from_closing, pairs, List.find?] at h
  repeat' split at h
  all_goals simp_all
  all_goals subst_vars
  all_goals tauto

theorem map_to_closing_cases {o c : Char} (h : map_to_closing o = some c) :
    (o = '[' ∧ c = ']') ∨ (o = '(' ∧ c = ')') ∨ (o = '{' ∧ c = '}') ∨ (o = '<' ∧ c = '>') := by
  simp only [map_to_closing, pairs, List.find?] at h
  repeat' split at h
  all_goals simp_all
  all_goals subst_vars
  all_goals tauto

/-- The two lookup tables are inverse to each other. -/
theorem map_to_of_from {c o : Char} (h : map_from_closing c = some o) :
    map_to_closing o = some c := by
  rcases map_from_closing_cases h with ⟨hc, ho⟩ | ⟨hc, ho⟩ | ⟨hc, ho⟩ | ⟨hc, ho⟩ <;>
    subst hc <;> subst ho <;> rfl

theorem map_from_of_to {o c : Char} (h : map_to_closing o = some c) :
    map_from_closing c = some o := by
  rcases map_to_closing_cases h with ⟨ho, hc⟩ | ⟨ho, hc⟩ | ⟨ho, hc⟩ | ⟨ho, hc⟩ <;>
    subst hc <;> subst ho <;> rfl

/-- A closing symbol is not an opening symbol. -/
theorem close_not_opening {c o : Char} (h : map_from_closing c = some o) : c ∉ opening := by
  rcases map_from_closing_cases h with ⟨hc, _⟩ | ⟨hc, _⟩ | ⟨hc, _⟩ | ⟨hc, _⟩ <;>
    subst hc <;> decide

/-- An opening symbol has a closer. -/
theorem opening_has_closer {o : Char} (h : o ∈ opening) :
    ∃ c, map_to_closing o = some c := by
  rcases mem_opening h with hc | hc | hc | hc <;> subst hc
  · exact ⟨']', rfl⟩
  · exact ⟨')', rfl⟩
  · exact ⟨'}', rfl⟩
  · exact ⟨'>', rfl⟩

theorem closer_mem {o c : Char} (h : map_to_closing o = some c) :
    c ∈ ([')', ']', '}', '>'] : List Char) := by
  rcases map_to_closing_cases h with ⟨_, hc⟩ | ⟨_, hc⟩ | ⟨_, hc⟩ | ⟨_, hc⟩ <;>
    subst hc <;> decide


/-! ### Composition of the scan over concatenation -/

theorem scan_append_done : ∀ (xs ys : List Char) (i : Nat) (st st1 : List Char),
    scan xs i st = .done st1 → scan (xs ++ ys) i st = scan ys (i + xs.length) st1 := by
  intro xs
  induction xs with
  | nil =>
    intro ys i st st1 h
    rw [scan_nil] at h
    cases h
    simp
  | cons c rest ih =>
    intro ys i st st1 h
    have hlen : i + (c :: rest).length = (i + 1) + rest.length := by
      simp only [List.length_cons]
      omega
    rw [List.cons_append, hlen]
    cases hm : map_from_closing c with
    | none =>
      rw [scan_cons_noclose rest i st hm] at h
      rw [scan_cons_noclose (rest ++ ys) i st hm]
      exact ih ys (i + 1) _ st1 h
    | some expected =>
      cases hl : (if c ∈ opening then st ++ [c] else st).getLast? with
      | none =>
        rw [scan_cons_close_empty rest i st hm hl] at h
        cases h
      | some last =>
        by_cases hne : last = expected
        · subst hne
          rw [scan_cons_close_match rest i st hm hl] at h
          rw [scan_cons_close_match (rest ++ ys) i st hm hl]
          exact ih ys (i + 1) _ st1 h
        · rw [scan_cons_close_mismatch rest i st hm hl hne] at h
          cases h

theorem scan_append_stop : ∀ (xs ys : List Char) (i : Nat) (st : List Char) (r : ScanOut),
    scan xs i st = r → (∀ s, r ≠ .done s) → scan (xs ++ ys) i st = r := by
  intro xs
  induction xs with
  | nil =>
    intro ys i st r h hr
    rw [scan_nil] at h
    exact absurd h.symm (hr st)
  | cons c rest ih =>
    intro ys i st r h hr
    rw [List.cons_append]
    cases hm : map_from_closing c with
    | none =>
      rw [scan_cons_noclose rest i st hm] at h
      rw [scan_cons_noclose (rest ++ ys) i st hm]
      exact ih ys (i + 1) _ r h hr
    | some expected =>
      cases hl : (if c ∈ opening then st ++ [c] else st).getLast? with
      | none =>
        rw [scan_cons_close_empty rest i st hm hl] at h
        rw [scan_cons_close_empty (rest ++ ys) i st hm hl]
        exact h
      | some last =>
        by_cases hne : last = expected
        · subst hne
          rw [scan_cons_close_match rest i st hm hl] at h
          rw [scan_cons_close_match (rest ++ ys) i st hm hl]
          exact ih ys (i + 1) _ r h hr
        · rw [scan_cons_close_mismatch rest i st hm hl hne] at h
          rw [scan_cons_close_mismatch (rest ++ ys) i st hm hl hne]
          exact h

/-- A scan of a concatenation that finishes normally also finishes
normally on the first part, with an intermediate stack. -/
theorem scan_append_split : ∀ (xs ys : List Char) (i : Nat) (st s : List Char),
    scan (xs ++ ys) i st = .done s →
    ∃ m, scan xs i st = .done m ∧ scan ys (i + xs.length) m = .done s := by
  intro xs ys i st s h
  cases h1 : scan xs i st with
  | done m =>
    rw [scan_append_done xs ys i st m h1] at h
    exact ⟨m, rfl, h⟩
  | err p c last =>
    rw [scan_append_stop xs ys i st _ h1 (by intro s1 hs1; cases hs1)] at h
    cases h
  | fault p =>
    rw [scan_append_stop xs ys i st _ h1 (by intro s1 hs1; cases hs1)] at h
    cases h

/-! ### Only opening symbols are ever pushed -/

theorem push_opening {c : Char} (st : List Char) (hst : ∀ x ∈ st, x ∈ opening) :
    ∀ x ∈ (if c ∈ opening then st ++ [c] else st), x ∈ opening := by
  intro x hx
  by_cases hc : c ∈ opening
  · rw [if_pos hc] at hx
    rcases List.mem_append.mp hx with h1 | h1
    · exact hst x h1
    · rw [List.mem_singleton] at h1
      subst h1
      exact hc
  · rw [if_neg hc] at hx
    exact hst x hx

theorem scan_done_opening : ∀ (xs : List Char) (i : Nat) (st s : List Char),
    (∀ x ∈ st, x ∈ opening) → scan xs i st = .done s → ∀ x ∈ s, x ∈ opening := by
  intro xs
  induction xs with
  | nil =>
    intro i st s hst h
    rw [scan_nil] at h
    cases h
    exact hst
  | cons c rest ih =>
    intro i st s hst h
    have hst1 := push_opening (c := c) st hst
    cases hm : map_from_closing c with
    | none =>
      rw [scan_cons_noclose rest i st hm] at h
      exact ih (i + 1) _ s hst1 h
    | some expected =>
      cases hl : (if c ∈ opening then st ++ [c] else st).getLast? with
      | none =>
        rw [scan_cons_close_empty rest i st hm hl] at h
        cases h
      | some last =>
        by_cases hne : last = expected
        · subst hne
          rw [scan_cons_close_match rest i st hm hl] at h
          refine ih (i + 1) _ s (fun x hx => hst1 x ?_) h
          exact List.dropLast_subset _ hx
        · rw [scan_cons_close_mismatch rest i st hm hl hne] at h
          cases h

/-! ### The completion sequence of a stack of opening symbols -/

theorem closers_of_some : ∀ (l : List Char), (∀ x ∈ l, x ∈ opening) →
    ∃ e, closers_of l = some e := by
  intro l
  induction l with
  | nil => exact fun _ => ⟨[], rfl⟩
  | cons x rest ih =>
    intro h
    obtain ⟨cx, hcx⟩ := opening_has_closer (h x (List.mem_cons_self x rest))
    obtain ⟨e, he⟩ := ih (fun y hy => h y (List.mem_cons_of_mem x hy))
    exact ⟨cx :: e, by simp [closers_of, hcx, he]⟩

theorem closers_of_mem : ∀ (l e : List Char), closers_of l = some e →
    ∀ x ∈ e, ∃ o ∈ l, map_to_closing o = some x := by
  intro l
  induction l with
  | nil =>
    intro e h x hx
    simp only [closers_of, Option.some.injEq] at h
    subst h
    cases hx
  | cons a rest ih =>
    intro e h x hx
    cases hm : map_to_closing a with
    | none => simp [closers_of, hm] at h
    | some ca =>
      cases he : closers_of rest with
      | none => simp [closers_of, hm, he] at h
      | some e1 =>
        simp only [closers_of, hm, he, Option.map_some', Option.some.injEq] at h
        subst h
        rcases List.mem_cons.mp hx with h1 | h1
        · subst h1
          exact ⟨a, List.mem_cons_self a rest, hm⟩
        · obtain ⟨o, ho, hoc⟩ := ih e1 he x h1
          exact ⟨o, List.mem_cons_of_mem a ho, hoc⟩

/-- Scanning the completion sequence of a stack of opening symbols pops
the whole stack. -/
theorem scan_closers : ∀ (st : List Char), (∀ x ∈ st, x ∈ opening) →
    ∀ (e : List Char) (i : Nat), closers_of st.reverse = some e → scan e i st = .done [] := by
  intro st
  induction st using List.reverseRecOn with
  | nil =>
    intro _ e i h
    simp only [List.reverse_nil, closers_of, Option.some.injEq] at h
    subst h
    exact scan_nil i []
  | append_singleton t a ih =>
    intro hall e i h
    have ha : a ∈ opening := hall a (by simp)
    have ht : ∀ x ∈ t, x ∈ opening := fun x hx => hall x (by simp [hx])
    obtain ⟨ca, hca⟩ := opening_has_closer ha
    rw [List.reverse_append, List.reverse_singleton, List.singleton_append] at h
    cases he : closers_of t.reverse with
    | none => simp [closers_of, hca, he] at h
    | some e1 =>
      simp only [closers_of, hca, he, Option.map_some', Option.some.injEq] at h
      subst h
      have hmf : map_from_closing ca = some a := map_from_of_to hca
      have hnotop : ca ∉ opening := close_not_opening hmf
      have hstack : (if ca ∈ opening then (t ++ [a]) ++ [ca] else t ++ [a]) = t ++ [a] :=
        if_neg hnotop
      rw [scan_cons_close_match e1 i (t ++ [a]) hmf
        (by rw [hstack]; exact List.getLast?_concat t)]
      rw [hstack, List.dropLast_concat]
      exact ih ht e1 (i + 1) he


/-! ### Where and why the scan raises `SyntaxError` -/

theorem scan_err_found : ∀ (xs : List Char) (i : Nat) (st : List Char) (p : Nat) (c last : Char),
    scan xs i st = .err p c last →
    ∃ k, p = i + k ∧ xs.get? k = some c ∧ (map_from_closing c).isSome := by
  intro xs
  induction xs with
  | nil =>
    intro i st p c last h
    rw [scan_nil] at h
    cases h
  | cons c0 rest ih =>
    intro i st p c last h
    cases hm : map_from_closing c0 with
    | none =>
      rw [scan_cons_noclose rest i st hm] at h
      obtain ⟨k, hk, hg, hs⟩ := ih (i + 1) _ p c last h
      exact ⟨k + 1, by omega, by simpa using hg, hs⟩
    | some expected =>
      cases hl : (if c0 ∈ opening then st ++ [c0] else st).getLast? with
      | none =>
        rw [scan_cons_close_empty rest i st hm hl] at h
        cases h
      | some last0 =>
        by_cases hne : last0 = expected
        · subst hne
          rw [scan_cons_close_match rest i st hm hl] at h
          obtain ⟨k, hk, hg, hs⟩ := ih (i + 1) _ p c last h
          exact ⟨k + 1, by omega, by simpa using hg, hs⟩
        · rw [scan_cons_close_mismatch rest i st hm hl hne] at h
          injection h with h1 h2 h3
          subst h1
          subst h2
          exact ⟨0, by omega, by simp, by simp [hm]⟩

/-! ### The three observable cases of `verify_syntax`, in terms of the scan -/

theorem verify_ok_iff {l : List Char} :
    verify_syntax l = .ok ↔ scan l 0 [] = .done [] := by
  constructor
  · intro h
    cases hs : scan l 0 [] with
    | done s =>
      simp only [ verify_syntax, hs] at h
      by_cases hlen : s.length > 0
      · rw [if_pos hlen] at h
        cases hc : closers_of s.reverse with
        | none => rw [hc] at h; cases h
        | some e => rw [hc] at h; cases h
      · have : s = [] := List.eq_nil_of_length_eq_zero (by omega)
        subst this
        rfl
    | err p c last =>
      simp only [ verify_syntax, hs] at h
      cases h
    | fault p =>
      simp only [ verify_syntax, hs] at h
      cases h
  · intro h
    simp [ verify_syntax, h]

theorem verify_incomplete_iff {l e : List Char} :
    verify_syntax l = .incomplete e ↔
      ∃ s, scan l 0 [] = .done s ∧ s ≠ [] ∧ closers_of s.reverse = some e := by
  constructor
  · intro h
    cases hs : scan l 0 [] with
    | done s =>
      simp only [ verify_syntax, hs] at h
      by_cases hlen : s.length > 0
      · rw [if_pos hlen] at h
        cases hc : closers_of s.reverse with
        | none => rw [hc] at h; cases h
        | some e1 =>
          rw [hc] at h
          injection h with h1
          subst h1
          exact ⟨s, rfl, by intro hnil; subst hnil; simp at hlen, hc⟩
      · rw [if_neg hlen] at h
        cases h
    | err p c last =>
      simp only [ verify_syntax, hs] at h
      cases h
    | fault p =>
      simp only [ verify_syntax, hs] at h
      cases h
  · rintro ⟨s, hs, hne, hc⟩
    have hlen : s.length > 0 := List.length_pos.mpr hne
    simp [ verify_syntax, hs, if_pos hlen, hc]

theorem verify_err_iff {l : List Char} {p : Nat} {c last : Char} :
    verify_syntax l = .syntaxError p c last ↔ scan l 0 [] = .err p c last := by
  constructor
  · intro h
    cases hs : scan l 0 [] with
    | done s =>
      simp only [ verify_syntax, hs] at h
      by_cases hlen : s.length > 0
      · rw [if_pos hlen] at h
        cases hc : closers_of s.reverse with
        | none => rw [hc] at h; cases h
        | some e => rw [hc] at h; cases h
      · rw [if_neg hlen] at h
        cases h
    | err p1 c1 last1 =>
      simp only [ verify_syntax, hs] at h
      injection h with h1 h2 h3
      subst h1
      subst h2
      subst h3
      rfl
    | fault p1 =>
      simp only [ verify_syntax, hs] at h
      cases h
  · intro h
    simp [ verify_syntax, h]


/-! ### The aggregator's table lookups always succeed -/

theorem mfc_isSome_mem {c : Char} (h : (map_from_closing c).isSome) :
    c ∈ ([')', ']', '}', '>'] : List Char) ∧ (illegal_scores c).isSome := by
  obtain ⟨o, ho⟩ := Option.isSome_iff_exists.mp h
  rcases map_from_closing_cases ho with ⟨hc, _⟩ | ⟨hc, _⟩ | ⟨hc, _⟩ | ⟨hc, _⟩ <;>
    subst hc <;> exact ⟨by decide, by decide⟩

theorem closer_missing_isSome {x : Char} (h : x ∈ ([')', ']', '}', '>'] : List Char)) :
    (missing_scores x).isSome := by
  simp only [List.mem_cons, List.mem_singleton, List.not_mem_nil, or_false] at h
  rcases h with rfl | rfl | rfl | rfl <;> decide

/-- A `SyntaxError` is raised at a valid index of the line, at its found
closing symbol. -/
theorem syntaxError_found {l : List Char} {p : Nat} {c last : Char}
    (h : verify_syntax l = .syntaxError p c last) :
    l.get? p = some c ∧ (map_from_closing c).isSome := by
  have hs := verify_err_iff.mp h
  obtain ⟨k, hk, hg, hsome⟩ := scan_err_found l 0 [] p c last hs
  have hkp : k = p := by omega
  subst hkp
  exact ⟨hg, hsome⟩

/-- Every element of an `IncompleteLineError`'s `expecting` list is a
closing symbol. -/
theorem incomplete_member_closer {l e : List Char} (h : verify_syntax l = .incomplete e) :
    ∀ x ∈ e, x ∈ ([')', ']', '}', '>'] : List Char) ∧ (missing_scores x).isSome := by
  obtain ⟨s, hs, hne, hc⟩ := verify_incomplete_iff.mp h
  intro x hx
  obtain ⟨o, ho, hoc⟩ := closers_of_mem s.reverse e hc x hx
  have hxc := closer_mem hoc
  exact ⟨hxc, closer_missing_isSome hxc⟩

/-- With every lookup succeeding, the aggregator's incompleteness fold is
the pure fold of the table scores. -/
theorem foldl_scores_eq : ∀ (e : List Char), (∀ x ∈ e, (missing_scores x).isSome) →
    ∀ s0 : Nat,
      e.foldl (fun acc x => acc.bind (fun s => (missing_scores x).map (fun v => s * 5 + v)))
          (some s0)
        = some (e.foldl (fun s c => s * 5 + (missing_scores c).getD 0) s0) := by
  intro e
  induction e with
  | nil => intro _ s0; rfl
  | cons x rest ih =>
    intro h s0
    obtain ⟨v, hv⟩ := Option.isSome_iff_exists.mp (h x (List.mem_cons_self x rest))
    have step : (some s0).bind (fun s => (missing_scores x).map (fun v => s * 5 + v))
        = some (s0 * 5 + v) := by simp [hv]
    have hgetD : (missing_scores x).getD 0 = v := by rw [hv]; rfl
    have hrec := ih (fun y hy => h y (List.mem_cons_of_mem x hy)) (s0 * 5 + v)
    simp only [List.foldl_cons, step, hgetD]
    exact hrec

/-! ### One iteration of the batch loop -/

theorem process_line_spec (st st1 : BatchState) (l : List Char)
    (h : process_line st l = some st1) :
    st1.illegal = st.illegal + corruption_contribution l ∧
    st1.missing = st.missing ++ (incomplete_score l).toList := by
  cases hv : verify_syntax l with
  | ok =>
    simp only [process_line, hv, Option.some.injEq] at h
    subst h
    simp [corruption_contribution, incomplete_score, hv]
  | syntaxError p c last =>
    obtain ⟨hg, hsome⟩ := syntaxError_found hv
    obtain ⟨sc, hsc⟩ := Option.isSome_iff_exists.mp (mfc_isSome_mem hsome).2
    simp only [process_line, hv, hg, hsc, Option.some.injEq] at h
    subst h
    simp [corruption_contribution, incomplete_score, hv, hsc]
  | incomplete e =>
    have hfold := foldl_scores_eq e (fun x hx => (incomplete_member_closer hv x hx).2) 0
    simp only [process_line, hv, hfold, Option.some.injEq] at h
    subst h
    simp [corruption_contribution, incomplete_score, hv]
  | fault p =>
    simp only [process_line, hv] at h
    exact Option.noConfusion h

/-- The only way an iteration of the batch loop can crash is the uncaught
IndexError inside `verify_syntax`; in particular the table lookups
`illegal_scores[line[e.pos]]` and `missing_scores[x]` never fail. -/
theorem process_line_none {st : BatchState} {l : List Char} (h : process_line st l = none) :
    ∃ i, verify_syntax l = .fault i := by
  cases hv : verify_syntax l with
  | ok =>
    simp only [process_line, hv] at h
    exact Option.noConfusion h
  | syntaxError p c last =>
    obtain ⟨hg, hsome⟩ := syntaxError_found hv
    obtain ⟨sc, hsc⟩ := Option.isSome_iff_exists.mp (mfc_isSome_mem hsome).2
    simp only [process_line, hv, hg, hsc] at h
    exact Option.noConfusion h
  | incomplete e =>
    have hfold := foldl_scores_eq e (fun x hx => (incomplete_member_closer hv x hx).2) 0
    simp only [process_line, hv, hfold] at h
    exact Option.noConfusion h
  | fault p => exact ⟨p, rfl⟩

/-! ### The whole batch loop -/

theorem process_go : ∀ (lines : List (List Char)) (st r : BatchState),
    List.foldlM process_line st lines = some r →
    r.illegal = st.illegal + (lines.map corruption_contribution).sum ∧
    r.missing = st.missing ++ lines.filterMap incomplete_score := by
  intro lines
  induction lines with
  | nil =>
    intro st r h
    simp only [List.foldlM_nil] at h
    cases h
    simp
  | cons l rest ih =>
    intro st r h
    rw [List.foldlM_cons] at h
    cases hp : process_line st l with
    | none =>
      rw [hp] at h
      simp at h
    | some st1 =>
      rw [hp] at h
      have h2 : List.foldlM process_line st1 rest = some r := by simpa using h
      obtain ⟨h1, h1m⟩ := process_line_spec st st1 l hp
      obtain ⟨h3, h4⟩ := ih st1 r h2
      constructor
      · rw [h3, h1, List.map_cons, List.sum_cons]
        omega
      · rw [h4, h1m, List.filterMap_cons]
        cases hi : incomplete_score l <;> simp [hi, List.append_assoc]


/-! ### Facts about the four legal pairs -/

theorem pair_opening {o c : Char} (hp : (o, c) ∈ pairs) : o ∈ opening := by
  simpa [opening] using List.mem_map_of_mem (fun x => x.1) hp

theorem pair_mfc {o c : Char} (hp : (o, c) ∈ pairs) : map_from_closing c = some o := by
  simp only [pairs, List.mem_cons, List.mem_singleton, Prod.mk.injEq, List.not_mem_nil,
    or_false] at hp
  rcases hp with ⟨rfl, rfl⟩ | ⟨rfl, rfl⟩ | ⟨rfl, rfl⟩ | ⟨rfl, rfl⟩ <;> rfl

theorem opening_not_closing {o : Char} (h : o ∈ opening) : map_from_closing o = none := by
  rcases mem_opening h with rfl | rfl | rfl | rfl <;> rfl

/-- Scanning a well-nested line leaves any stack unchanged. -/
theorem scan_balanced {l : List Char} (hb : Balanced l) :
    ∀ (i : Nat) (st : List Char), scan l i st = .done st := by
  induction hb with
  | nil => intro i st; exact scan_nil i st
  | @wrap o c m hp hm ih =>
    intro i st
    have ho : o ∈ opening := pair_opening hp
    have hc : map_from_closing c = some o := pair_mfc hp
    have hmo : map_from_closing o = none := opening_not_closing ho
    rw [scan_cons_noclose (m ++ [c]) i st hmo]
    rw [if_pos ho]
    rw [scan_append_done m [c] (i + 1) (st ++ [o]) (st ++ [o]) (ih (i + 1) (st ++ [o]))]
    have hcop : c ∉ opening := close_not_opening hc
    rw [scan_cons_close_match [] _ (st ++ [o]) hc
      (by rw [if_neg hcop]; exact List.getLast?_concat st)]
    rw [if_neg hcop, List.dropLast_concat]
    exact scan_nil _ st
  | @seq a b ha hb iha ihb =>
    intro i st
    rw [scan_append_done a b i st st (iha i st)]
    exact ihb (i + a.length) st

/-! ### Completion of an incomplete line -/

theorem incomplete_append_ok {line e : List Char} (h : verify_syntax line = .incomplete e) :
    verify_syntax (line ++ e) = .ok := by
  obtain ⟨s, hs, hne, hc⟩ := verify_incomplete_iff.mp h
  have hop : ∀ x ∈ s, x ∈ opening :=
    scan_done_opening line 0 [] s (by intro y hy; cases hy) hs
  have h2 : scan e (0 + line.length) s = .done [] := scan_closers s hop e _ hc
  have h3 : scan (line ++ e) 0 [] = .done [] := by
    rw [scan_append_done line e 0 [] s hs]
    exact h2
  exact verify_ok_iff.mpr h3

theorem prefix_of_ok {p q : List Char} (h : verify_syntax (p ++ q) = .ok)
    (hne : verify_syntax p ≠ .ok) :
    ∃ e, verify_syntax p = .incomplete e := by
  have hs := verify_ok_iff.mp h
  obtain ⟨m, hm, _⟩ := scan_append_split p q 0 [] [] hs
  have hop : ∀ x ∈ m, x ∈ opening :=
    scan_done_opening p 0 [] m (by intro y hy; cases hy) hm
  obtain ⟨e, he⟩ := closers_of_some m.reverse (fun x hx => hop x (List.mem_reverse.mp hx))
  have hmne : m ≠ [] := by
    intro hnil
    subst hnil
    exact hne (verify_ok_iff.mpr hm)
  exact ⟨e, verify_incomplete_iff.mpr ⟨m, hm, hmne, he⟩⟩

/-! ### Replacing one closing symbol of a valid line -/

theorem replace_closer {u w : List Char} {d c2 o : Char}
    (hok : verify_syntax (u ++ d :: w) = .ok)
    (ho : map_from_closing d = some o)
    (hc2 : (map_from_closing c2).isSome)
    (hne : c2 ≠ d) :
    verify_syntax (u ++ c2 :: w) = .syntaxError u.length c2 o := by
  obtain ⟨o2, ho2⟩ := Option.isSome_iff_exists.mp hc2
  have hs := verify_ok_iff.mp hok
  obtain ⟨m, hm, hrest⟩ := scan_append_split u (d :: w) 0 [] [] hs
  have hdop : d ∉ opening := close_not_opening ho
  have hif : (if d ∈ opening then m ++ [d] else m) = m := if_neg hdop
  cases hl : (if d ∈ opening then m ++ [d] else m).getLast? with
  | none =>
    rw [scan_cons_close_empty w _ m ho hl] at hrest
    cases hrest
  | some last =>
    by_cases hlo : last = o
    · have hlm : m.getLast? = some o := by
        rw [hif] at hl
        rw [← hlo]
        exact hl
      have hc2op : c2 ∉ opening := close_not_opening ho2
      have hif2 : (if c2 ∈ opening then m ++ [c2] else m) = m := if_neg hc2op
      have hl2 : (if c2 ∈ opening then m ++ [c2] else m).getLast? = some o := by
        rw [hif2]
        exact hlm
      have hlne : o ≠ o2 := by
        intro heq
        subst heq
        have e1 := map_to_of_from ho
        have e2 := map_to_of_from ho2
        rw [e1] at e2
        injection e2 with e3
        exact hne e3.symm
      have herr : scan (c2 :: w) (0 + u.length) m = .err (0 + u.length) c2 o :=
        scan_cons_close_mismatch w _ m ho2 hl2 hlne
      have hfin : scan (u ++ c2 :: w) 0 [] = .err (0 + u.length) c2 o := by
        rw [scan_append_done u (c2 :: w) 0 [] m hm]
        exact herr
      have hres := verify_err_iff.mpr hfin
      simpa using hres
    · rw [scan_cons_close_mismatch w _ m ho hl hlo] at hrest
      cases hrest


/-! ### Characters outside the bracket alphabet fall through the loop -/

theorem is_bracket_false {c : Char} (h : is_bracket c = false) :
    c ∉ opening ∧ map_from_closing c = none := by
  simp only [is_bracket, Bool.or_eq_false_iff, decide_eq_false_iff_not] at h
  refine ⟨h.1, ?_⟩
  cases hm : map_from_closing c with
  | none => rfl
  | some o =>
    have := h.2
    rw [hm] at this
    cases this

theorem scan_filter : ∀ (l : List Char) (i j : Nat) (st : List Char),
    scan_shape (scan (l.filter is_bracket) j st) = scan_shape (scan l i st) := by
  intro l
  induction l with
  | nil => intro i j st; rfl
  | cons c rest ih =>
    intro i j st
    by_cases hb : is_bracket c
    · rw [List.filter_cons_of_pos hb]
      cases hm : map_from_closing c with
      | none =>
        rw [scan_cons_noclose (rest.filter is_bracket) j st hm,
          scan_cons_noclose rest i st hm]
        exact ih (i + 1) (j + 1) _
      | some expected =>
        cases hl : (if c ∈ opening then st ++ [c] else st).getLast? with
        | none =>
          rw [scan_cons_close_empty (rest.filter is_bracket) j st hm hl,
            scan_cons_close_empty rest i st hm hl]
          rfl
        | some last =>
          by_cases hne : last = expected
          · subst hne
            rw [scan_cons_close_match (rest.filter is_bracket) j st hm hl,
              scan_cons_close_match rest i st hm hl]
            exact ih (i + 1) (j + 1) _
          · rw [scan_cons_close_mismatch (rest.filter is_bracket) j st hm hl hne,
              scan_cons_close_mismatch rest i st hm hl hne]
            rfl
    · have hb2 : is_bracket c = false := by simpa using hb
      obtain ⟨hnop, hmn⟩ := is_bracket_false hb2
      rw [List.filter_cons_of_neg (by simpa using hb2)]
      rw [scan_cons_noclose rest i st hmn]
      rw [if_neg hnop]
      exact ih (i + 1) j st

theorem scan_shape_done {x : ScanOut} {s : List Char} (h : scan_shape x = .done s) :
    x = .done s := by
  cases x with
  | done s1 => simpa [scan_shape] using h
  | err p c last => simp [scan_shape] at h
  | fault p => simp [scan_shape] at h

theorem scan_shape_err {x : ScanOut} {p : Nat} {c last : Char}
    (h : scan_shape x = .err p c last) : ∃ q, x = .err q c last := by
  cases x with
  | done s1 => simp [scan_shape] at h
  | err p1 c1 last1 =>
    simp only [scan_shape, ScanOut.err.injEq] at h
    exact ⟨p1, by rw [h.2.1, h.2.2]⟩
  | fault p1 => simp [scan_shape] at h

theorem scan_shape_fault {x : ScanOut} {p : Nat} (h : scan_shape x = .fault p) :
    ∃ q, x = .fault q := by
  cases x with
  | done s1 => simp [scan_shape] at h
  | err p1 c1 last1 => simp [scan_shape] at h
  | fault p1 => exact ⟨p1, rfl⟩

/-- Claim C8 (amended: the result is unchanged up to the reported
position): a character outside the eight bracket symbols is neither
pushed nor compared, so dropping all non-bracket characters of a line
leaves the classification and the payloads (found character, stack top,
`expecting` list) of `verify_syntax` unchanged; only the reported
position shifts with the removed characters. -/
theorem claim_C8 (l : List Char) :
    result_shape ( verify_syntax (l.filter is_bracket)) = result_shape ( verify_syntax l) := by
  have h := scan_filter l 0 0 []
  cases h2 : scan l 0 [] with
  | done s =>
    rw [h2] at h
    have h3 : scan (l.filter is_bracket) 0 [] = .done s :=
      scan_shape_done (by simpa [scan_shape] using h)
    by_cases hlen : s.length > 0
    · cases hc : closers_of s.reverse with
      | none => simp [ verify_syntax, h2, h3, hlen, hc, result_shape]
      | some e => simp [ verify_syntax, h2, h3, hlen, hc, result_shape]
    · simp [ verify_syntax, h2, h3, hlen, result_shape]
  | err p c last =>
    rw [h2] at h
    obtain ⟨q, hq⟩ := scan_shape_err (by simpa [scan_shape] using h)
    simp [ verify_syntax, h2, hq, result_shape]
  | fault p =>
    rw [h2] at h
    obtain ⟨q, hq⟩ := scan_shape_fault (by simpa [scan_shape] using h)
    simp [ verify_syntax, h2, hq, result_shape]


/-! ### The claims -/

/-- Claim C1 (code bug): the spec mandates that a closing symbol met with
an empty stack yields `Corrupted` at that position with no defined
expected character; the code instead evaluates `stack[-1]` on the empty
stack and dies of an uncaught IndexError.  On the single-character line
`)` the code faults at position 0 instead of classifying the line. -/
theorem claim_C1_fault_eval : verify_syntax [')'] = .fault 0 := by decide

/-- Claim C2, counterexample to the claim as stated: on the line `)` the
validator yields none of the three declared result cases — it faults. -/
theorem claim_C2_cex :
    ¬ ( verify_syntax [')'] = .ok ∨
        (∃ p c last, verify_syntax [')'] = .syntaxError p c last) ∨
        (∃ e, verify_syntax [')'] = .incomplete e)) := by
  have hv : verify_syntax [')'] = .fault 0 := by decide
  rintro (h | ⟨p, c, last, h⟩ | ⟨e, h⟩) <;> rw [hv] at h <;> cases h

/-- Claim C2 (amended: restricted to lines that do not hit the
empty-stack fault): the validator yields `Incomplete e` exactly when the
scan finishes with a non-empty stack and `e` is the reversed remaining
stack mapped to closers; on fault-free lines exactly one of the three
cases holds, and an `Incomplete` line is never also `Corrupted`. -/
theorem claim_C2 :
    (∀ (l e : List Char), verify_syntax l = .incomplete e ↔
        ∃ s, scan l 0 [] = .done s ∧ s ≠ [] ∧ closers_of s.reverse = some e)
    ∧ (∀ l : List Char, (∀ i, verify_syntax l ≠ .fault i) →
        ( verify_syntax l = .ok ∨ (∃ p c last, verify_syntax l = .syntaxError p c last)
          ∨ (∃ e, verify_syntax l = .incomplete e)))
    ∧ (∀ (l e : List Char) (p : Nat) (c last : Char),
        verify_syntax l = .incomplete e → verify_syntax l ≠ .syntaxError p c last) := by
  refine ⟨fun l e => verify_incomplete_iff, ?_, ?_⟩
  · intro l hf
    cases hv : verify_syntax l with
    | ok => exact Or.inl rfl
    | syntaxError p c last => exact Or.inr (Or.inl ⟨p, c, last, rfl⟩)
    | incomplete e => exact Or.inr (Or.inr ⟨e, rfl⟩)
    | fault i => exact absurd hv (hf i)
  · intro l e p c last h1 h2
    rw [h1] at h2
    cases h2

/-- Concrete instance of claim C2 at the fault-free line `(`. -/
theorem claim_C2_witness :
    ( verify_syntax ['('] = .incomplete [')'] ↔
      ∃ s, scan ['('] 0 [] = .done s ∧ s ≠ [] ∧ closers_of s.reverse = some [')'])
    ∧ ( verify_syntax ['('] = .ok ∨
        (∃ p c last, verify_syntax ['('] = .syntaxError p c last) ∨
        (∃ e, verify_syntax ['('] = .incomplete e))
    ∧ verify_syntax ['('] ≠ .syntaxError 0 ')' '(' := by
  refine ⟨claim_C2.1 ['('] [')'], claim_C2.2.1 ['('] ?_, claim_C2.2.2 ['('] [')'] 0 ')' '(' (by decide)⟩
  intro i h
  have hv : verify_syntax ['('] = .incomplete [')'] := by decide
  rw [hv] at h
  cases h

/-- Claim C3: appending the `expecting` sequence of an incomplete line
yields a valid line; and a truncation of a valid line that leaves
unmatched opens is incomplete, with a completion that restores validity. -/
theorem claim_C3 :
    (∀ (line e : List Char), verify_syntax line = .incomplete e →
        verify_syntax (line ++ e) = .ok)
    ∧ (∀ (p q : List Char), verify_syntax (p ++ q) = .ok → verify_syntax p ≠ .ok →
        ∃ e, verify_syntax p = .incomplete e ∧ verify_syntax (p ++ e) = .ok) := by
  refine ⟨fun line e h => incomplete_append_ok h, fun p q hok hne => ?_⟩
  obtain ⟨e, he⟩ := prefix_of_ok hok hne
  exact ⟨e, he, incomplete_append_ok he⟩

/-- Concrete instance of claim C3 at the line `(` (a truncation of the
valid line `()`). -/
theorem claim_C3_witness :
    verify_syntax (['('] ++ [')']) = .ok ∧
    (∃ e, verify_syntax ['('] = .incomplete e ∧ verify_syntax (['('] ++ e) = .ok) :=
  ⟨claim_C3.1 ['('] [')'] (by decide),
   claim_C3.2 ['('] [')'] (by decide) (by decide)⟩

/-- Claim C4: every well-nested line over the four legal pairs validates
as `Valid`; in particular the empty line does. -/
theorem claim_C4 :
    (∀ l : List Char, Balanced l → verify_syntax l = .ok) ∧ verify_syntax [] = .ok := by
  exact ⟨fun l hb => verify_ok_iff.mpr (scan_balanced hb 0 []), by decide⟩

/-- Concrete instance of claim C4 at the well-nested line `()`. -/
theorem claim_C4_witness : verify_syntax ['(', ')'] = .ok :=
  claim_C4.1 ['(', ')'] (Balanced.wrap (by decide) Balanced.nil)

/-- Claim C5: replacing one closing symbol `d` of a valid line by a
different closing symbol yields `Corrupted` at the replaced position —
the first mismatch, since the scan of the unchanged prefix is unchanged —
with the found character the new symbol and the expected closer the
original `d`; concretely, the example line `{([(<{}[<>[]}>{[]{[(<()>`
is corrupted at position 12 with found `}` and expected closer `]`. -/
theorem claim_C5 :
    (∀ (u w : List Char) (d c2 o : Char),
        verify_syntax (u ++ d :: w) = .ok →
        map_from_closing d = some o →
        (map_from_closing c2).isSome →
        c2 ≠ d →
        verify_syntax (u ++ c2 :: w) = .syntaxError u.length c2 o ∧
          map_to_closing o = some d)
    ∧ ( verify_syntax ['{', '(', '[', '(', '<', '{', '}', '[', '<', '>', '[', ']', '}', '>',
          '{', '[', ']', '{', '[', '(', '<', '(', ')', '>'] = .syntaxError 12 '}' '['
        ∧ map_to_closing '[' = some ']') := by
  exact ⟨fun u w d c2 o hok ho hc2 hne => ⟨replace_closer hok ho hc2 hne, map_to_of_from ho⟩,
    by decide, by decide⟩

/-- Concrete instance of claim C5: replacing the `)` of the valid line
`()` by `]` gives `Corrupted` at position 1, found `]`, stack top `(`
whose expected closer is the original `)`. -/
theorem claim_C5_witness :
    verify_syntax (['('] ++ ']' :: []) = .syntaxError 1 ']' '(' ∧
      map_to_closing '(' = some ')' :=
  claim_C5.1 ['('] [] ')' ']' '(' (by decide) (by decide) (by decide) (by decide)


/-- Claim C8, counterexample to the claim as stated: removing the blank
of the line `( ]` moves the reported corruption position from 2 to 1, so
the `ValidationResult` (which carries the position) is not literally
unchanged. -/
theorem claim_C8_cex :
    verify_syntax (['(', ' ', ']'].filter is_bracket) ≠ verify_syntax ['(', ' ', ']'] := by
  decide

/-- Claim C6: a batch run that completes accumulates as corruption total
exactly the sum, over the corrupted lines, of the `illegal_scores` table
value of the single character that triggered each line's `SyntaxError`;
on the ten example lines the total is 26397. -/
theorem claim_C6 :
    (∀ (lines : List (List Char)) (st : BatchState), process lines = some st →
        st.illegal = (lines.map corruption_contribution).sum)
    ∧ (process example_lines).map BatchState.illegal = some 26397 := by
  constructor
  · intro lines st h
    have h2 := (process_go lines { valid := [], illegal := 0, missing := [] } st h).1
    simpa using h2
  · decide

/-- Concrete instance of claim C6 on the ten example lines. -/
theorem claim_C6_witness :
    ({ valid := [], illegal := 26397,
        missing := [288957, 5566, 1480781, 995444, 294] } : BatchState).illegal
      = (example_lines.map corruption_contribution).sum :=
  claim_C6.1 example_lines _ (by decide)

/-- Claim C7: the missing-score list of a completed batch holds, in
order, the fold `score = score * 5 + missing_scores[x]` over the
`expecting` sequence of exactly the incomplete lines; the reported answer
is the entry at index `count / 2` of the ascending-sorted list; the first
example line completes with `}}]])})]` and scores 288957, and the example
batch reports (26397, 288957). -/
theorem claim_C7 :
    (∀ (lines : List (List Char)) (st : BatchState), process lines = some st →
        st.missing = lines.filterMap incomplete_score)
    ∧ (∀ (l e : List Char), verify_syntax l = .incomplete e →
        incomplete_score l = some (e.foldl (fun s c => s * 5 + (missing_scores c).getD 0) 0))
    ∧ (∀ (lines : List (List Char)) (st : BatchState), process lines = some st →
        main_result lines = (missing_report st.missing).map (fun m => (st.illegal, m)))
    ∧ ( verify_syntax (example_lines.getD 0 [])
          = .incomplete ['}', '}', ']', ']', ')', '}', ')', ']']
        ∧ incomplete_score (example_lines.getD 0 []) = some 288957)
    ∧ main_result example_lines = some (26397, 288957) := by
  refine ⟨?_, ?_, ?_, ⟨by decide, by decide⟩, by decide⟩
  · intro lines st h
    have h2 := (process_go lines { valid := [], illegal := 0, missing := [] } st h).2
    simpa using h2
  · intro l e h
    simp [incomplete_score, h]
  · intro lines st h
    simp [main_result, h]

/-- Concrete instances of claim C7: the missing-score list of the example
batch, the fold score of the incomplete line `(`, and the reported median
of the example batch. -/
theorem claim_C7_witness :
    ({ valid := [], illegal := 26397,
        missing := [288957, 5566, 1480781, 995444, 294] } : BatchState).missing
      = example_lines.filterMap incomplete_score
    ∧ incomplete_score ['('] = some ([')'].foldl (fun s c => s * 5 + (missing_scores c).getD 0) 0)
    ∧ main_result example_lines =
        (missing_report [288957, 5566, 1480781, 995444, 294]).map (fun m => (26397, m)) :=
  ⟨claim_C7.1 example_lines _ (by decide),
   claim_C7.2.1 ['('] [')'] (by decide),
   claim_C7.2.2.1 example_lines
     { valid := [], illegal := 26397, missing := [288957, 5566, 1480781, 995444, 294] }
     (by decide)⟩

/-- Claim C9, counterexample to the claim as stated: on an empty batch
the run does fault — the median report indexes the empty sorted score
list (`sorted(missing)[int(len(missing) / 2)]` on `missing = []`). -/
theorem claim_C9_cex : main_result [] = none := by decide

/-- Claim C9 (amended): the per-line loop itself never faults on an empty
batch — it completes with corruption total 0, no incompleteness scores
and no valid lines — but the subsequent median report indexes an empty
list and crashes. -/
theorem claim_C9 :
    process [] = some { valid := [], illegal := 0, missing := [] } ∧
      missing_report [] = none := by
  decide

/-- Claim C10: a `SyntaxError` always carries a valid index of the line
whose character is the found closing symbol, an `IncompleteLineError`'s
`expecting` list holds only closing symbols, and hence the aggregator's
`illegal_scores[line[e.pos]]` and `missing_scores[x]` lookups always
succeed: an iteration of the batch loop can only crash through the
validator's own empty-stack fault. -/
theorem claim_C10 :
    (∀ (l : List Char) (p : Nat) (c last : Char), verify_syntax l = .syntaxError p c last →
        l.get? p = some c ∧ c ∈ ([')', ']', '}', '>'] : List Char) ∧
          (illegal_scores c).isSome)
    ∧ (∀ (l e : List Char), verify_syntax l = .incomplete e →
        ∀ x ∈ e, x ∈ ([')', ']', '}', '>'] : List Char) ∧ (missing_scores x).isSome)
    ∧ (∀ (st : BatchState) (l : List Char), process_line st l = none →
        ∃ i, verify_syntax l = .fault i) := by
  refine ⟨?_, ?_, fun st l h => process_line_none h⟩
  · intro l p c last h
    obtain ⟨hg, hsome⟩ := syntaxError_found h
    obtain ⟨hmem, hscore⟩ := mfc_isSome_mem hsome
    exact ⟨hg, hmem, hscore⟩
  · intro l e h x hx
    exact incomplete_member_closer h x hx

/-- Concrete instances of claim C10 at the corrupted line `(]`, the
incomplete line `(`, and the faulting line `)`. -/
theorem claim_C10_witness :
    (['(', ']'].get? 1 = some ']' ∧ ']' ∈ ([')', ']', '}', '>'] : List Char) ∧
        (illegal_scores ']').isSome)
    ∧ (')' ∈ ([')', ']', '}', '>'] : List Char) ∧ (missing_scores ')').isSome)
    ∧ (∃ i, verify_syntax [')'] = .fault i) :=
  ⟨claim_C10.1 ['(', ']'] 1 ']' '(' (by decide),
   claim_C10.2.1 ['('] [')'] (by decide) ')' (by decide),
   claim_C10.2.2 { valid := [], illegal := 0, missing := [] } [')'] (by decide)⟩

end Dec10
